import Mathlib

/-!
Verification of the libgo-http conv/header converter.

The Go program reads raw HTTP response header text line by line, classifies
each line as a status line, a key-value pair, or raw text, normalizes header
keys to lower-camel-case JSON field names, aggregates the records into a map,
and serializes the map as JSON.

Strings are modelled as lists of Unicode characters (Go ranges over runes for
trimming and regexp matching; Go byte lengths are recovered with utf8Len).
The two regular expressions of the source are modelled by explicit
leftmost-first backtracking searches, which is the submatch semantics the Go
regexp package guarantees.
-/

namespace LibgoHttp

/-- A Go string, as its list of runes. -/
abbrev GoStr := List Char

/-- unicode.IsSpace from the Go standard library: the Unicode White_Space
property (used by strings.TrimRightFunc in createSenders). -/
def goIsSpace (c : Char) : Bool :=
  decide (c.toNat = 9 ∨ c.toNat = 10 ∨ c.toNat = 11 ∨ c.toNat = 12 ∨
    c.toNat = 13 ∨ c.toNat = 32 ∨ c.toNat = 0x85 ∨ c.toNat = 0xA0 ∨
    c.toNat = 0x1680 ∨ (0x2000 ≤ c.toNat ∧ c.toNat ≤ 0x200A) ∨
    c.toNat = 0x2028 ∨ c.toNat = 0x2029 ∨ c.toNat = 0x202F ∨
    c.toNat = 0x205F ∨ c.toNat = 0x3000)

/-- The character class matched by a backslash-s atom in the Go regexp
package: tab, newline, form feed, carriage return, space (and nothing else;
vertical tab is not included). -/
def reSpace (c : Char) : Bool :=
  decide (c.toNat = 9 ∨ c.toNat = 10 ∨ c.toNat = 12 ∨ c.toNat = 13 ∨ c.toNat = 32)

/-- The regexp character class of ASCII digits 0-9. -/
def isDig (c : Char) : Bool :=
  decide (48 ≤ c.toNat ∧ c.toNat ≤ 57)

/-- Number of bytes of the UTF-8 encoding of one rune (Go len counts bytes). -/
def charUtf8Size (c : Char) : Nat :=
  if c.toNat < 0x80 then 1
  else if c.toNat < 0x800 then 2
  else if c.toNat < 0x10000 then 3
  else 4

/-- Go len of a string: the length in bytes of its UTF-8 encoding. -/
def utf8Len (l : GoStr) : Nat :=
  (l.map charUtf8Size).foldr (fun a b => a + b) 0

/-- strings.TrimRightFunc l unicode.IsSpace: remove all trailing whitespace. -/
def trimRight (l : GoStr) : GoStr :=
  (l.reverse.dropWhile goIsSpace).reverse

/-- True when the string has no trailing whitespace (the shape of every line
after trimRight). -/
def noTrailWs : GoStr → Bool
  | [] => true
  | [c] => !(goIsSpace c)
  | _ :: c :: rest => noTrailWs (c :: rest)

/-- Splits the input character stream into newline-terminated lines, each
including its final newline, exactly as the bufio ReadString loop of
createSenders does: a final chunk not terminated by a newline is returned
together with an error, and the read loop breaks on that error before
classifying the chunk, so such a chunk yields no line at all. -/
def readLinesAux : List Char → List Char → List GoStr
  | _, [] => []
  | acc, c :: rest =>
    if c = '\n' then (c :: acc).reverse :: readLinesAux [] rest
    else readLinesAux (c :: acc) rest

/-- All complete (newline-terminated) lines of the input stream. -/
def readLines (input : List Char) : List GoStr :=
  readLinesAux [] input

/-! ## Key normalization (createJsonKey) -/

/-- The rune map applied by keyReplacer: hyphen and slash become a space. -/
def keyReplace (c : Char) : Char :=
  if c = '-' ∨ c = '/' then ' ' else c

/-- ASCII uppercase mapping: the uppercasing applied by the x/text Und caser
restricted to ASCII letters. On every other character this model is the
identity, while the source applies the Unicode case mappings; theorems about
the normalizer therefore restrict the keys they quantify over to ASCII. -/
def asciiToUpper : Char → Char
  | 'a' => 'A' | 'b' => 'B' | 'c' => 'C' | 'd' => 'D' | 'e' => 'E'
  | 'f' => 'F' | 'g' => 'G' | 'h' => 'H' | 'i' => 'I' | 'j' => 'J'
  | 'k' => 'K' | 'l' => 'L' | 'm' => 'M' | 'n' => 'N' | 'o' => 'O'
  | 'p' => 'P' | 'q' => 'Q' | 'r' => 'R' | 's' => 'S' | 't' => 'T'
  | 'u' => 'U' | 'v' => 'V' | 'w' => 'W' | 'x' => 'X' | 'y' => 'Y'
  | 'z' => 'Z'
  | c => c

/-- ASCII lowercase mapping: strings.ToLower and the lowercasing of the
x/text Und caser, restricted to ASCII letters. On every other character this
model is the identity, while the source applies the Unicode case mappings
(for example a-umlaut or the sharp s); theorems about the normalizer
therefore restrict the keys they quantify over to ASCII. -/
def asciiToLower : Char → Char
  | 'A' => 'a' | 'B' => 'b' | 'C' => 'c' | 'D' => 'd' | 'E' => 'e'
  | 'F' => 'f' | 'G' => 'g' | 'H' => 'h' | 'I' => 'i' | 'J' => 'j'
  | 'K' => 'k' | 'L' => 'l' | 'M' => 'm' | 'N' => 'n' | 'O' => 'o'
  | 'P' => 'p' | 'Q' => 'q' | 'R' => 'r' | 'S' => 's' | 'T' => 't'
  | 'U' => 'u' | 'V' => 'v' | 'W' => 'w' | 'X' => 'x' | 'Y' => 'y'
  | 'Z' => 'z'
  | c => c

/-- A character that continues a word for the title caser (ASCII
alphanumeric; the header keys fed to the caser are ASCII words separated by
spaces produced by keyReplace). -/
def isWordChar (c : Char) : Bool :=
  decide ((65 ≤ c.toNat ∧ c.toNat ≤ 90) ∨ (97 ≤ c.toNat ∧ c.toNat ≤ 122) ∨
    (48 ≤ c.toNat ∧ c.toNat ≤ 57))

/-- cases.Title(language.Und) of the x/text package, modelled on ASCII text:
the first letter of each word is uppercased and the remaining letters of the
word are lowercased; characters outside words are kept and end the current
word. The boolean state records whether the previous character was inside a
word. The model is faithful only on ASCII keys: the source applies Unicode
casing with the full mappings of SpecialCasing (the sharp s title-maps to a
two-letter string) and a finer word segmentation, so theorems about the
normalizer restrict the keys they quantify over to ASCII, where for the
single-word keys of those theorems both the model and the source reduce to
plain lowercasing. -/
def titleCase : Bool → GoStr → GoStr
  | _, [] => []
  | inWord, c :: rest =>
    if isWordChar c then
      (if inWord then asciiToLower c else asciiToUpper c) :: titleCase true rest
    else
      c :: titleCase false rest

/-- strings.Split on a single space: all segments, empty segments kept. -/
def splitOnSpace : GoStr → List GoStr
  | [] => [[]]
  | c :: rest =>
    if c = ' ' then [] :: splitOnSpace rest
    else
      match splitOnSpace rest with
      | [] => [[c]]
      | w :: ws => (c :: w) :: ws

/-- createJsonKey: replace hyphens and slashes by spaces, title-case the
words, lowercase the whole first space-separated segment, and concatenate all
segments. -/
def createJsonKey (key : GoStr) : GoStr :=
  let t := key.map keyReplace
  let t2 := titleCase false t
  match splitOnSpace t2 with
  | [] => []
  | w :: ws => w.map asciiToLower ++ ws.foldr (fun a b => a ++ b) []

/-- createJsonKey with the error component of its Go signature: the function
always returns a nil error. -/
def createJsonKeyGo (key : GoStr) : GoStr × Option GoStr :=
  (createJsonKey key, none)

/-! ## The pair pattern

pairPattern is the anchored regexp
caret (key: dot plus non-greedy) colon (backslash-s plus) (value: dot plus) dollar.
Its leftmost-first submatch semantics: key lengths are tried from 1 upward;
at each candidate colon the whitespace run is matched greedily and given back
one character at a time if the value would otherwise be empty; dot does not
match a newline; dollar matches only the end of the text. -/

/-- Length of the maximal backslash-s run at the front of the text. -/
def wsRun (cs : GoStr) : Nat :=
  (cs.takeWhile reSpace).length

/-- Backtracking for (backslash-s plus)(dot plus)dollar after the colon: try
the whitespace-run length r from its maximum downward; the value is the rest,
which must be non-empty and must not contain a newline. -/
def tryValue (cs : GoStr) : Nat → Option GoStr
  | 0 => none
  | Nat.succ r =>
    let v := cs.drop (Nat.succ r)
    if v ≠ [] ∧ (∀ c ∈ v, c ≠ '\n') then some v else tryValue cs r

/-- The backtracking search of pairPattern: acc holds the reversed key
candidate so far. A colon with a non-empty key candidate is tried as the
separator; on failure the colon joins the key and the search continues. A
newline can never be part of the key. -/
def pairGo : GoStr → GoStr → Option (GoStr × GoStr)
  | _, [] => none
  | acc, c :: rest =>
    if c = ':' ∧ acc ≠ [] then
      match tryValue rest (wsRun rest) with
      | some v => some (acc.reverse, v)
      | none => pairGo (c :: acc) rest
    else if c = '\n' then none
    else pairGo (c :: acc) rest

/-- parsePair: reject a line whose first character is a space, then match
pairPattern; on a match convert the key with createJsonKey (JSON format) and
return the record. A none result models the error return. -/
def parsePair (line : GoStr) : Option (GoStr × GoStr) :=
  if line.head? = some ' ' then none
  else
    match pairGo [] line with
    | some (k, v) =>
      match createJsonKeyGo k with
      | (k2, none) => some (k2, v)
      | (_, some _) => none
    | none => none

/-- The first character of the remaining text is in the backslash-s class. -/
def headWs : GoStr → Bool
  | [] => false
  | c :: _ => reSpace c

/-- Modelled from the words of the specification, for comparison with the
source regexp in claim C3: the key is the shortest non-empty run of
characters up to the first occurrence of a colon followed by at least one
whitespace character; the separator is that colon together with the whole
whitespace run; the value is everything remaining and must be non-empty. -/
def specPairSplit : GoStr → GoStr → Option (GoStr × GoStr)
  | _, [] => none
  | acc, c :: rest =>
    if c = ':' ∧ acc ≠ [] ∧ headWs rest = true then
      let v := rest.dropWhile reSpace
      if v = [] then none else some (acc.reverse, v)
    else specPairSplit (c :: acc) rest

/-! ## The status pattern

statusPattern is the unanchored regexp
(code: digit repeated three times) backslash-s (message: dot plus) dollar.
The leftmost match is found by scanning the start position from the left. -/

/-- Leftmost search of statusPattern: at each start position, three digits, a
single whitespace-class character, then a non-empty remainder without a
newline reaching the end of the text. Returns the captured code. -/
def statusGo : GoStr → Option GoStr
  | [] => none
  | c0 :: rest =>
    match rest with
    | c1 :: c2 :: c3 :: rest2 =>
      if isDig c0 ∧ isDig c1 ∧ isDig c2 ∧ reSpace c3 = true ∧
          rest2 ≠ [] ∧ (∀ c ∈ rest2, c ≠ '\n') then
        some [c0, c1, c2]
      else statusGo rest
    | _ => none

/-- parseStatus: match statusPattern and, in the JSON output format, emit the
record with key code and the captured three-digit number as value. -/
def parseStatus (line : GoStr) : Option (GoStr × GoStr) :=
  match statusGo line with
  | some code => some (("code").data, code)
  | none => none

/-! ## createSenders

The producer goroutine of createSenders reads the input line by line (the
loop breaks on the read error of a final unterminated chunk, handled by
readLines), trims trailing whitespace, drops lines whose byte length after
trimming is below 4, tries the status pattern on the first retained line
only, falls through to the pair pattern, and routes lines that match neither
to the not-converted stream. The two channels deliver the records in
emission order, so they are modelled as the two output lists. -/

/-- The classifier loop of createSenders over the list of complete lines; f
is the first-retained-line flag, cleared by the first line that survives the
length test, whether or not the status pattern matches it. -/
def createSenders : List GoStr → Bool → List (GoStr × GoStr) × List GoStr
  | [], _ => ([], [])
  | l :: rest, f =>
    let t := trimRight l
    if utf8Len t < 4 then createSenders rest f
    else if f then
      match parseStatus t with
      | some kv =>
        let p := createSenders rest false
        (kv :: p.1, p.2)
      | none =>
        match parsePair t with
        | some kv =>
          let p := createSenders rest false
          (kv :: p.1, p.2)
        | none =>
          let p := createSenders rest false
          (p.1, t :: p.2)
    else
      match parsePair t with
      | some kv =>
        let p := createSenders rest false
        (kv :: p.1, p.2)
      | none =>
        let p := createSenders rest false
        (p.1, t :: p.2)

/-- The classifier restricted to the pair pattern: the processing applied to
every line after the first retained one (the status pattern is never
consulted here). -/
def createSendersNoStatus : List GoStr → List (GoStr × GoStr) × List GoStr
  | [] => ([], [])
  | l :: rest =>
    let t := trimRight l
    if utf8Len t < 4 then createSendersNoStatus rest
    else
      match parsePair t with
      | some kv =>
        let p := createSendersNoStatus rest
        (kv :: p.1, p.2)
      | none =>
        let p := createSendersNoStatus rest
        (p.1, t :: p.2)

/-! ## The aggregator (convert and Output) -/

/-- A value of the output mapping: header values are strings; the reserved
raw entry holds the list of unparseable lines. -/
inductive JValue where
  | str : GoStr → JValue
  | arr : List GoStr → JValue
deriving DecidableEq

/-- Assignment into the Go map: overwrite the entry when the key is present,
append a new entry otherwise. -/
def mapInsert (m : List (GoStr × JValue)) (k : GoStr) (v : JValue) :
    List (GoStr × JValue) :=
  if m.any (fun p => decide (p.1 = k)) then
    m.map (fun p => if p.1 = k then (k, v) else p)
  else m ++ [(k, v)]

/-- Go map lookup. -/
def mapLookup (m : List (GoStr × JValue)) (k : GoStr) : Option JValue :=
  Option.map (fun p => p.2) (m.find? (fun p => decide (p.1 = k)))

/-- The receiver goroutine of convert for the converted stream: each record
is assigned into the map in stream order. -/
def buildMap (kvs : List (GoStr × GoStr)) : List (GoStr × JValue) :=
  kvs.foldl (fun m kv => mapInsert m kv.1 (JValue.str kv.2)) []

/-- The value of the last record of the stream carrying the given key, the
last-write-wins characterization of claim C7. -/
def lastVal (kvs : List (GoStr × GoStr)) (k : GoStr) : Option GoStr :=
  kvs.foldl (fun acc p => if p.1 = k then some p.2 else acc) none

/-- convert: run the classifier over the complete lines and drain both
streams, giving the map of converted records, the ordered raw lines, and the
(always nil) error; the elapsed-time result is observability only and is not
modelled. -/
def convert (lines : List GoStr) :
    List (GoStr × JValue) × List GoStr × Option GoStr :=
  let s := createSenders lines true
  (buildMap s.1, s.2, none)

/-- The reserved key of the raw-lines entry in the JSON output format. -/
def rawKey : GoStr := ("raw").data

/-- The mapping as it stands just before serialization in Output: the raw
lines are attached under the reserved key when any exist. -/
def outputMap (lines : List GoStr) : List (GoStr × JValue) :=
  let c := convert lines
  if c.2.1 ≠ [] then mapInsert c.1 rawKey (JValue.arr c.2.1) else c.1

/-! ## JSON serialization (encoding/json on this mapping) -/

/-- Lowercase hexadecimal digit. -/
def hexDigit (n : Nat) : Char :=
  if n = 0 then '0' else if n = 1 then '1' else if n = 2 then '2'
  else if n = 3 then '3' else if n = 4 then '4' else if n = 5 then '5'
  else if n = 6 then '6' else if n = 7 then '7' else if n = 8 then '8'
  else if n = 9 then '9' else if n = 10 then 'a' else if n = 11 then 'b'
  else if n = 12 then 'c' else if n = 13 then 'd' else if n = 14 then 'e'
  else 'f'

/-- The string escaping of encoding/json with its default HTML escaping:
quote, backslash, the HTML characters, newline, carriage return, tab, other
control characters, and the line separators U+2028 and U+2029. -/
def jsonEscapeChar (c : Char) : GoStr :=
  if c = '"' then ['\\', '"']
  else if c = '\\' then ['\\', '\\']
  else if c = '<' then ['\\', 'u', '0', '0', '3', 'c']
  else if c = '>' then ['\\', 'u', '0', '0', '3', 'e']
  else if c = '&' then ['\\', 'u', '0', '0', '2', '6']
  else if c = '\n' then ['\\', 'n']
  else if c = '\r' then ['\\', 'r']
  else if c = '\t' then ['\\', 't']
  else if c.toNat < 0x20 then
    ['\\', 'u', '0', '0', hexDigit (c.toNat / 16), hexDigit (c.toNat % 16)]
  else if c.toNat = 0x2028 then ['\\', 'u', '2', '0', '2', '8']
  else if c.toNat = 0x2029 then ['\\', 'u', '2', '0', '2', '9']
  else [c]

/-- A JSON string literal. -/
def jsonQuote (s : GoStr) : GoStr :=
  '"' :: (s.foldr (fun c acc => jsonEscapeChar c ++ acc) []) ++ ['"']

/-- Serialization of one mapping value. -/
def jsonVal : JValue → GoStr
  | JValue.str s => jsonQuote s
  | JValue.arr ls =>
    '[' :: (List.intercalate [','] (ls.map jsonQuote)) ++ [']']

/-- Bytewise comparison of two strings (UTF-8 byte order coincides with code
point order). -/
def listCharLt : GoStr → GoStr → Bool
  | [], [] => false
  | [], _ :: _ => true
  | _ :: _, [] => false
  | a :: as, b :: bs =>
    if a.toNat < b.toNat then true
    else if b.toNat < a.toNat then false
    else listCharLt as bs

/-- Insertion into a key-sorted entry list. -/
def insertSorted (e : GoStr × JValue) :
    List (GoStr × JValue) → List (GoStr × JValue)
  | [] => [e]
  | f :: rest =>
    if listCharLt e.1 f.1 then e :: f :: rest else f :: insertSorted e rest

/-- encoding/json serializes a map with its keys in sorted order. -/
def sortEntries (m : List (GoStr × JValue)) : List (GoStr × JValue) :=
  m.foldr insertSorted []

/-- json.Marshal of the mapping: the key-sorted object. -/
def jsonMarshalStr (m : List (GoStr × JValue)) : GoStr :=
  '\x7b' :: (List.intercalate [',']
    ((sortEntries m).map (fun p => jsonQuote p.1 ++ ':' :: jsonVal p.2))) ++ ['\x7d']

/-- json.Marshal with the error component of its Go signature: marshalling a
map whose values are strings and lists of strings cannot fail, so the result
is always ok. -/
def jsonMarshalE (m : List (GoStr × JValue)) : Except GoStr GoStr :=
  Except.ok (jsonMarshalStr m)

/-- The body of Output over the complete lines, with the serialization
function abstracted so that the handling of a serialization failure at the
call site is visible: convert never returns an error, the raw lines are
attached under the reserved key, and the error of the marshal call is
discarded (the blank identifier in the source), the result string being the
conversion of a nil byte slice, that is empty, when the marshal fails. -/
def OutputWith (marshal : List (GoStr × JValue) → Except GoStr GoStr)
    (lines : List GoStr) : GoStr × Option GoStr :=
  let c := convert lines
  match c.2.2 with
  | some e => ([], some e)
  | none =>
    let m := if c.2.1 ≠ [] then mapInsert c.1 rawKey (JValue.arr c.2.1) else c.1
    let t := match marshal m with
      | Except.ok s => s
      | Except.error _ => []
    (t, none)

/-- Output on an input character stream: read the complete lines, convert,
attach the raw lines, serialize with json.Marshal, and return the string
with a nil error. -/
def Output (input : List Char) : GoStr × Option GoStr :=
  OutputWith jsonMarshalE (readLines input)

/-- The command entry point: exit code 1 when Output reports an error, 0
otherwise. -/
def mainExitCode (input : List Char) : Nat :=
  match (Output input).2 with
  | some _ => 1
  | none => 0

/-! ## Helper lemmas -/


lemma mapLookup_cons (p : GoStr × JValue) (rest : List (GoStr × JValue)) (k : GoStr) :
    mapLookup (p :: rest) k = if p.1 = k then some p.2 else mapLookup rest k := by
  by_cases h : p.1 = k
  · simp [mapLookup, List.find?_cons_of_pos, h]
  · simp [mapLookup, List.find?_cons_of_neg, h]

lemma mapLookup_replace (k : GoStr) (v : JValue) (k2 : GoStr) :
    ∀ m : List (GoStr × JValue),
    mapLookup (m.map (fun p => if p.1 = k then (k, v) else p)) k2 =
      if k = k2 then
        (if m.any (fun p => decide (p.1 = k)) then some v else none)
      else mapLookup m k2 := by
  intro m
  induction m with
  | nil => by_cases hk : k = k2 <;> simp [mapLookup, hk]
  | cons p rest ih =>
    by_cases hp : p.1 = k
    · simp only [List.map_cons, if_pos hp, mapLookup_cons]
      by_cases hk : k = k2
      · simp [hk, hp]
      · have hpk2 : ¬p.1 = k2 := fun h => hk (by rw [hp] at h; exact h)
        simp only [if_neg hk, ih, mapLookup_cons, if_neg hpk2]
    · simp only [List.map_cons, if_neg hp, mapLookup_cons]
      by_cases hpk2 : p.1 = k2
      · have hk : ¬k = k2 := fun h => hp (by rw [hpk2]; exact h.symm)
        simp [hpk2, hk]
      · simp only [if_neg hpk2, ih, List.any_cons]
        have hd : decide (p.1 = k) = false := by simp [hp]
        simp only [hd, Bool.false_or]

lemma mapLookup_append_single (k : GoStr) (v : JValue) (k2 : GoStr) :
    ∀ m : List (GoStr × JValue),
    mapLookup (m ++ [(k, v)]) k2 =
      match mapLookup m k2 with
      | some w => some w
      | none => if k = k2 then some v else none := by
  intro m
  induction m with
  | nil =>
    by_cases hk : k = k2 <;> simp [mapLookup, hk]
  | cons p rest ih =>
    by_cases hpk2 : p.1 = k2
    · simp [List.cons_append, mapLookup_cons, hpk2]
    · simp only [List.cons_append, mapLookup_cons, if_neg hpk2, ih]

lemma mapLookup_none_of_no_key (m : List (GoStr × JValue)) (k : GoStr)
    (h : m.any (fun p => decide (p.1 = k)) = false) : mapLookup m k = none := by
  have : ∀ a ∈ m, ¬(decide (a.1 = k) = true) := by
    intro a ha hak
    rw [List.any_eq_false] at h
    exact h a ha hak
  simp only [mapLookup, List.find?_eq_none.mpr this, Option.map_none']

lemma mapLookup_mapInsert (m : List (GoStr × JValue)) (k k2 : GoStr) (v : JValue) :
    mapLookup (mapInsert m k v) k2 = if k = k2 then some v else mapLookup m k2 := by
  by_cases hany : m.any (fun p => decide (p.1 = k)) = true
  · simp only [mapInsert, if_pos hany, mapLookup_replace, hany, if_true]
  · rw [Bool.not_eq_true] at hany
    simp only [mapInsert, hany, Bool.false_eq_true, if_false, mapLookup_append_single]
    by_cases hk : k = k2
    · subst hk
      rw [mapLookup_none_of_no_key m k hany]
    · cases hm : mapLookup m k2 <;> simp [hk, hm]

lemma mapInsert_lookup_self (m : List (GoStr × JValue)) (k : GoStr) (v : JValue) :
    mapLookup (mapInsert m k v) k = some v := by
  rw [mapLookup_mapInsert, if_pos rfl]



lemma readLinesAux_no_newline (t : List Char) (ht : ∀ c ∈ t, c ≠ '\n') :
    ∀ acc, readLinesAux acc t = [] := by
  induction t with
  | nil => intro acc; rfl
  | cons c rest ih =>
    intro acc
    have hc : c ≠ '\n' := ht c (List.mem_cons_self c rest)
    simp only [readLinesAux, if_neg hc]
    exact ih (fun x hx => ht x (List.mem_cons_of_mem c hx)) (c :: acc)

lemma readLinesAux_append (t : List Char) (ht : ∀ c ∈ t, c ≠ '\n') :
    ∀ cs acc, readLinesAux acc (cs ++ t) = readLinesAux acc cs := by
  intro cs
  induction cs with
  | nil =>
    intro acc
    simp only [List.nil_append]
    exact readLinesAux_no_newline t ht acc
  | cons c rest ih =>
    intro acc
    by_cases hc : c = '\n'
    · subst hc
      simp only [List.cons_append, readLinesAux, if_pos rfl]
      simp [ih]
    · simp only [List.cons_append, readLinesAux, if_neg hc]
      exact ih (c :: acc)

lemma createSenders_skip_short (l : GoStr) (h : utf8Len (trimRight l) < 4) :
    ∀ ls1 ls2 f, createSenders (ls1 ++ l :: ls2) f = createSenders (ls1 ++ ls2) f := by
  intro ls1
  induction ls1 with
  | nil =>
    intro ls2 f
    simp only [List.nil_append, createSenders, if_pos h]
  | cons a as ih =>
    intro ls2 f
    simp only [List.cons_append, createSenders]
    by_cases ha : utf8Len (trimRight a) < 4
    · simp only [if_pos ha]
      exact ih ls2 f
    · simp only [if_neg ha]
      cases f
      · cases hp : parsePair (trimRight a) <;> simp [hp, ih ls2 false]
      · cases hs : parseStatus (trimRight a)
        · cases hp : parsePair (trimRight a) <;> simp [hs, hp, ih ls2 false]
        · simp [hs, ih ls2 false]

lemma createSenders_false_eq (ls : List GoStr) :
    createSenders ls false = createSendersNoStatus ls := by
  induction ls with
  | nil => rfl
  | cons a as ih =>
    simp only [createSenders, createSendersNoStatus]
    by_cases ha : utf8Len (trimRight a) < 4
    · simp only [if_pos ha]; exact ih
    · simp only [if_neg ha]
      cases hp : parsePair (trimRight a) <;> simp [hp, ih]

lemma createSenders_first_retained (pre : List GoStr) (l : GoStr) (rest : List GoStr)
    (hpre : ∀ p ∈ pre, utf8Len (trimRight p) < 4)
    (hl : 4 ≤ utf8Len (trimRight l)) :
    createSenders (pre ++ l :: rest) true =
      match parseStatus (trimRight l) with
      | some kv => (kv :: (createSendersNoStatus rest).1, (createSendersNoStatus rest).2)
      | none => createSendersNoStatus (l :: rest) := by
  induction pre with
  | nil =>
    simp only [List.nil_append, createSenders, if_neg (Nat.not_lt.mpr hl)]
    cases hs : parseStatus (trimRight l)
    · cases hp : parsePair (trimRight l) <;>
        simp [createSendersNoStatus, if_neg (Nat.not_lt.mpr hl), hp, createSenders_false_eq]
    · simp [createSenders_false_eq]
  | cons a as ih =>
    have ha : utf8Len (trimRight a) < 4 := hpre a (List.mem_cons_self a as)
    simp only [List.cons_append, createSenders, if_pos ha]
    exact ih (fun p hp => hpre p (List.mem_cons_of_mem a hp))



lemma buildMap_foldl_lookup (k : GoStr) :
    ∀ (kvs : List (GoStr × GoStr)) (m : List (GoStr × JValue)) (acc : Option GoStr),
    mapLookup m k = Option.map JValue.str acc →
    mapLookup (kvs.foldl (fun m kv => mapInsert m kv.1 (JValue.str kv.2)) m) k =
      Option.map JValue.str (kvs.foldl (fun a p => if p.1 = k then some p.2 else a) acc) := by
  intro kvs
  induction kvs with
  | nil => intro m acc h; exact h
  | cons p rest ih =>
    intro m acc h
    simp only [List.foldl_cons]
    apply ih
    rw [mapLookup_mapInsert]
    by_cases hp : p.1 = k
    · simp [hp]
    · simp [hp, h]

lemma buildMap_lookup_lastVal (kvs : List (GoStr × GoStr)) (k : GoStr) :
    mapLookup (buildMap kvs) k = Option.map JValue.str (lastVal kvs k) := by
  exact buildMap_foldl_lookup k kvs [] none rfl

lemma countP_mapInsert_le (m : List (GoStr × JValue)) (k k2 : GoStr) (v : JValue)
    (h : m.countP (fun p => decide (p.1 = k2)) ≤ 1) :
    (mapInsert m k v).countP (fun p => decide (p.1 = k2)) ≤ 1 := by
  by_cases hany : m.any (fun p => decide (p.1 = k)) = true
  · simp only [mapInsert, if_pos hany]
    have : (m.map (fun p => if p.1 = k then (k, v) else p)).countP
        (fun p => decide (p.1 = k2)) = m.countP (fun p => decide (p.1 = k2)) := by
      rw [List.countP_map]
      apply List.countP_congr
      intro a _
      by_cases ha : a.1 = k
      · simp [Function.comp, ha]
      · simp [Function.comp, ha]
    rw [this]; exact h
  · rw [Bool.not_eq_true] at hany
    simp only [mapInsert, hany, Bool.false_eq_true, if_false, List.countP_append]
    by_cases hk : k = k2
    · subst hk
      have hz : m.countP (fun p => decide (p.1 = k)) = 0 := by
        rw [List.countP_eq_zero]
        intro a ha
        rw [List.any_eq_false] at hany
        exact hany a ha
      rw [hz]
      simp [List.countP_cons]
    · have : List.countP (fun p => decide (p.1 = k2)) [(k, v)] = 0 := by
        simp [List.countP_cons, hk]
      rw [this]
      simpa using h

lemma buildMap_countP_le (kvs : List (GoStr × GoStr)) (k : GoStr) :
    (buildMap kvs).countP (fun p => decide (p.1 = k)) ≤ 1 := by
  suffices h : ∀ (kvs : List (GoStr × GoStr)) (m : List (GoStr × JValue)),
      m.countP (fun p => decide (p.1 = k)) ≤ 1 →
      (kvs.foldl (fun m kv => mapInsert m kv.1 (JValue.str kv.2)) m).countP
        (fun p => decide (p.1 = k)) ≤ 1 by
    exact h kvs [] (by simp)
  intro kvs2
  induction kvs2 with
  | nil => intro m h; exact h
  | cons p rest ih =>
    intro m h
    simp only [List.foldl_cons]
    exact ih _ (countP_mapInsert_le m p.1 k (JValue.str p.2) h)

lemma mapInsert_keys_sub (m : List (GoStr × JValue)) (k k2 : GoStr) (v : JValue)
    (h : k2 ∈ (mapInsert m k v).map (fun p => p.1)) :
    k2 = k ∨ k2 ∈ m.map (fun p => p.1) := by
  by_cases hany : m.any (fun p => decide (p.1 = k)) = true
  · simp only [mapInsert, if_pos hany, List.map_map, List.mem_map] at h
    rcases h with ⟨a, ha, hk2⟩
    by_cases hak : a.1 = k
    · left
      simp [Function.comp, hak] at hk2
      exact hk2.symm
    · right
      rw [List.mem_map]
      refine ⟨a, ha, ?_⟩
      simp [Function.comp, hak] at hk2
      exact hk2
  · rw [Bool.not_eq_true] at hany
    simp only [mapInsert, hany, Bool.false_eq_true, if_false, List.map_append,
      List.mem_append, List.map_cons, List.map_nil, List.mem_singleton] at h
    rcases h with h | h
    · right; exact h
    · left; exact h

lemma buildMap_keys_sub (kvs : List (GoStr × GoStr)) (k2 : GoStr)
    (h : k2 ∈ (buildMap kvs).map (fun p => p.1)) :
    ∃ kv ∈ kvs, kv.1 = k2 := by
  suffices hgen : ∀ (kvs : List (GoStr × GoStr)) (m : List (GoStr × JValue)),
      k2 ∈ ((kvs.foldl (fun m kv => mapInsert m kv.1 (JValue.str kv.2)) m).map
        (fun p => p.1)) →
      k2 ∈ m.map (fun p => p.1) ∨ ∃ kv ∈ kvs, kv.1 = k2 by
    rcases hgen kvs [] h with h1 | h1
    · simp at h1
    · exact h1
  intro kvs2
  induction kvs2 with
  | nil => intro m hm; left; exact hm
  | cons p rest ih =>
    intro m hm
    simp only [List.foldl_cons] at hm
    rcases ih _ hm with h1 | h1
    · rcases mapInsert_keys_sub m p.1 k2 (JValue.str p.2) h1 with h2 | h2
      · right
        exact ⟨p, List.mem_cons_self p rest, h2.symm⟩
      · left; exact h2
    · right
      rcases h1 with ⟨kv, hkv, hk⟩
      exact ⟨kv, List.mem_cons_of_mem p hkv, hk⟩

lemma parseStatus_key (line : GoStr) (kv : GoStr × GoStr)
    (h : parseStatus line = some kv) : kv.1 = ("code").data := by
  unfold parseStatus at h
  cases hs : statusGo line with
  | none => rw [hs] at h; exact absurd h (by simp)
  | some code => rw [hs] at h; injection h with h2; rw [← h2]

lemma parsePair_key (line : GoStr) (kv : GoStr × GoStr)
    (h : parsePair line = some kv) : ∃ k0, kv.1 = createJsonKey k0 := by
  unfold parsePair at h
  by_cases hh : line.head? = some ' '
  · rw [if_pos hh] at h; exact absurd h (by simp)
  · rw [if_neg hh] at h
    cases hp : pairGo [] line with
    | none => rw [hp] at h; exact absurd h (by simp)
    | some p =>
      rw [hp] at h
      simp only [createJsonKeyGo] at h
      injection h with h2
      exact ⟨p.1, by rw [← h2]⟩

lemma createSenders_conv_keys (ls : List GoStr) (f : Bool) (kv : GoStr × GoStr)
    (h : kv ∈ (createSenders ls f).1) :
    kv.1 = ("code").data ∨ ∃ k0, kv.1 = createJsonKey k0 := by
  induction ls generalizing f with
  | nil => simp [createSenders] at h
  | cons a as ih =>
    by_cases ha : utf8Len (trimRight a) < 4
    · rw [createSenders, if_pos ha] at h
      exact ih f h
    · rw [createSenders, if_neg ha] at h
      cases f with
      | false =>
        simp only [Bool.false_eq_true, if_false] at h
        cases hp : parsePair (trimRight a) with
        | none => rw [hp] at h; exact ih false h
        | some kv2 =>
          rw [hp] at h
          rcases List.mem_cons.mp h with h1 | h1
          · right; exact h1 ▸ parsePair_key _ _ hp
          · exact ih false h1
      | true =>
        simp only [if_true] at h
        cases hs : parseStatus (trimRight a) with
        | some kv2 =>
          rw [hs] at h
          rcases List.mem_cons.mp h with h1 | h1
          · left; exact h1 ▸ parseStatus_key _ _ hs
          · exact ih false h1
        | none =>
          rw [hs] at h
          cases hp : parsePair (trimRight a) with
          | none => rw [hp] at h; exact ih false h
          | some kv2 =>
            rw [hp] at h
            rcases List.mem_cons.mp h with h1 | h1
            · right; exact h1 ▸ parsePair_key _ _ hp
            · exact ih false h1

end LibgoHttp

namespace LibgoHttp

lemma asciiToLower_asciiToUpper (c : Char) :
    asciiToLower (asciiToUpper c) = asciiToLower c := by
  unfold asciiToUpper
  split <;> rfl

lemma asciiToLower_out (c : Char) :
    asciiToLower c = c ∨ (97 ≤ (asciiToLower c).toNat ∧ (asciiToLower c).toNat ≤ 122) := by
  unfold asciiToLower
  split <;> first | (left; rfl) | (right; decide)

lemma asciiToLower_id_of_not_upper (c : Char)
    (h : ¬(65 ≤ c.toNat ∧ c.toNat ≤ 90)) : asciiToLower c = c := by
  unfold asciiToLower
  split <;> first | rfl | (exact absurd (by decide) h)

lemma asciiToLower_asciiToLower (c : Char) :
    asciiToLower (asciiToLower c) = asciiToLower c := by
  rcases asciiToLower_out c with h | h
  · rw [h]; exact h
  · exact asciiToLower_id_of_not_upper (asciiToLower c) (by omega)

lemma asciiToUpper_eq_outside (c d : Char)
    (hd : ¬(65 ≤ d.toNat ∧ d.toNat ≤ 90)) (h : asciiToUpper c = d) : c = d := by
  revert h
  unfold asciiToUpper
  split <;> intro h <;> first | exact h | (subst h; exact absurd (by decide) hd)

lemma asciiToLower_eq_outside (c d : Char)
    (hd : ¬(97 ≤ d.toNat ∧ d.toNat ≤ 122)) (h : asciiToLower c = d) : c = d := by
  revert h
  unfold asciiToLower
  split <;> intro h <;> first | exact h | (subst h; exact absurd (by decide) hd)

lemma asciiToUpper_ne_sep (c d : Char) (hd : ¬(65 ≤ d.toNat ∧ d.toNat ≤ 90))
    (h : c ≠ d) : asciiToUpper c ≠ d :=
  fun hcon => h (asciiToUpper_eq_outside c d hd hcon)

lemma asciiToLower_ne_sep (c d : Char) (hd : ¬(97 ≤ d.toNat ∧ d.toNat ≤ 122))
    (h : c ≠ d) : asciiToLower c ≠ d :=
  fun hcon => h (asciiToLower_eq_outside c d hd hcon)

lemma map_lower_titleCase (l : GoStr) :
    ∀ b, (titleCase b l).map asciiToLower = l.map asciiToLower := by
  induction l with
  | nil => intro b; rfl
  | cons c rest ih =>
    intro b
    by_cases hw : isWordChar c = true
    · cases b <;>
        simp only [titleCase, hw, if_true, List.map_cons, ih,
          asciiToLower_asciiToUpper, asciiToLower_asciiToLower,
          Bool.false_eq_true, if_false]
    · rw [Bool.not_eq_true] at hw
      simp only [titleCase, hw, Bool.false_eq_true, if_false, List.map_cons, ih]

lemma titleCase_no_sep (l : GoStr) (d : Char)
    (hu : ¬(65 ≤ d.toNat ∧ d.toNat ≤ 90)) (hl : ¬(97 ≤ d.toNat ∧ d.toNat ≤ 122))
    (h : ∀ c ∈ l, c ≠ d) :
    ∀ b, ∀ c ∈ titleCase b l, c ≠ d := by
  induction l with
  | nil => intro b c hc; simp [titleCase] at hc
  | cons a rest ih =>
    intro b c hc
    have ha : a ≠ d := h a (List.mem_cons_self a rest)
    have hrest : ∀ c ∈ rest, c ≠ d := fun x hx => h x (List.mem_cons_of_mem a hx)
    by_cases hw : isWordChar a = true
    · simp only [titleCase, hw, if_true] at hc
      rcases List.mem_cons.mp hc with h1 | h1
      · subst h1
        cases b
        · simpa using asciiToUpper_ne_sep a d hu ha
        · simpa using asciiToLower_ne_sep a d hl ha
      · exact ih hrest true c h1
    · rw [Bool.not_eq_true] at hw
      simp only [titleCase, hw, Bool.false_eq_true, if_false] at hc
      rcases List.mem_cons.mp hc with h1 | h1
      · subst h1; exact ha
      · exact ih hrest false c h1

lemma splitOnSpace_no_space (l : GoStr) (h : ∀ c ∈ l, c ≠ ' ') :
    splitOnSpace l = [l] := by
  induction l with
  | nil => rfl
  | cons c rest ih =>
    have hc : c ≠ ' ' := h c (List.mem_cons_self c rest)
    rw [splitOnSpace, if_neg hc, ih (fun x hx => h x (List.mem_cons_of_mem c hx))]

lemma map_keyReplace_id (l : GoStr) (h : ∀ c ∈ l, c ≠ '-' ∧ c ≠ '/') :
    l.map keyReplace = l := by
  induction l with
  | nil => rfl
  | cons c rest ih =>
    have hc := h c (List.mem_cons_self c rest)
    have : keyReplace c = c := by
      unfold keyReplace
      rw [if_neg]
      rintro (h1 | h1)
      · exact hc.1 h1
      · exact hc.2 h1
    rw [List.map_cons, this, ih (fun x hx => h x (List.mem_cons_of_mem c hx))]

/-- On a key without hyphen, slash or space, createJsonKey is exactly the
ASCII lowercasing of the key. -/
lemma createJsonKey_single_word (k : GoStr)
    (h : ∀ c ∈ k, c ≠ '-' ∧ c ≠ '/' ∧ c ≠ ' ') :
    createJsonKey k = k.map asciiToLower := by
  have hrep : k.map keyReplace = k :=
    map_keyReplace_id k (fun c hc => ⟨(h c hc).1, (h c hc).2.1⟩)
  have hnos : ∀ c ∈ titleCase false k, c ≠ ' ' :=
    titleCase_no_sep k ' ' (by decide) (by decide)
      (fun c hc => (h c hc).2.2) false
  have hdef : createJsonKey k =
      match splitOnSpace (titleCase false (k.map keyReplace)) with
      | [] => []
      | w :: ws => w.map asciiToLower ++ ws.foldr (fun a b => a ++ b) [] := rfl
  rw [hdef, hrep, splitOnSpace_no_space (titleCase false k) hnos]
  simp only [List.foldr_nil, List.append_nil]
  exact map_lower_titleCase k false

lemma map_lower_no_sep (k : GoStr)
    (h : ∀ c ∈ k, c ≠ '-' ∧ c ≠ '/' ∧ c ≠ ' ') :
    ∀ c ∈ k.map asciiToLower, c ≠ '-' ∧ c ≠ '/' ∧ c ≠ ' ' := by
  intro c hc
  rcases List.mem_map.mp hc with ⟨a, ha, hac⟩
  have h1 := h a ha
  subst hac
  exact ⟨asciiToLower_ne_sep a '-' (by decide) h1.1,
    asciiToLower_ne_sep a '/' (by decide) h1.2.1,
    asciiToLower_ne_sep a ' ' (by decide) h1.2.2⟩

end LibgoHttp

namespace LibgoHttp

lemma reSpace_goIsSpace (c : Char) (h : reSpace c = true) : goIsSpace c = true := by
  simp only [reSpace, decide_eq_true_eq] at h
  simp only [goIsSpace, decide_eq_true_eq]
  omega

lemma noTrailWs_tail (c : Char) (rest : GoStr) (h : noTrailWs (c :: rest) = true) :
    noTrailWs rest = true := by
  cases rest with
  | nil => rfl
  | cons c2 rest2 => exact h

lemma noTrailWs_not_all_space (cs : GoStr) (hne : cs ≠ [])
    (hall : ∀ c ∈ cs, reSpace c = true) : noTrailWs cs = false := by
  induction cs with
  | nil => exact absurd rfl hne
  | cons c rest ih =>
    cases rest with
    | nil =>
      have := reSpace_goIsSpace c (hall c (List.mem_cons_self c []))
      simp [noTrailWs, this]
    | cons c2 rest2 =>
      exact ih (by simp) (fun x hx => hall x (List.mem_cons_of_mem c hx))

lemma drop_wsRun (cs : GoStr) : cs.drop (wsRun cs) = cs.dropWhile reSpace := by
  induction cs with
  | nil => rfl
  | cons c rest ih =>
    by_cases hc : reSpace c = true
    · simp only [wsRun, List.takeWhile_cons, hc, if_true, List.length_cons,
        List.drop_succ_cons, List.dropWhile_cons]
      exact ih
    · rw [Bool.not_eq_true] at hc
      simp [wsRun, List.takeWhile_cons, hc, List.dropWhile_cons]

lemma wsRun_pos (cs : GoStr) (h : headWs cs = true) : 0 < wsRun cs := by
  cases cs with
  | nil => simp [headWs] at h
  | cons c rest =>
    simp only [headWs] at h
    simp [wsRun, List.takeWhile_cons, h]

lemma wsRun_zero (cs : GoStr) (h : headWs cs = false) : wsRun cs = 0 := by
  cases cs with
  | nil => rfl
  | cons c rest =>
    simp only [headWs] at h
    simp [wsRun, List.takeWhile_cons, h]

lemma tryValue_max (cs : GoStr) (hpos : 0 < wsRun cs)
    (hvne : cs.dropWhile reSpace ≠ [])
    (hvnl : ∀ c ∈ cs.dropWhile reSpace, c ≠ '\n') :
    tryValue cs (wsRun cs) = some (cs.dropWhile reSpace) := by
  cases hR : wsRun cs with
  | zero => omega
  | succ r =>
    have hdrop : cs.drop r.succ = cs.dropWhile reSpace := by
      have h2 := drop_wsRun cs
      rw [hR] at h2
      exact h2
    simp only [tryValue, hdrop, if_pos (And.intro hvne hvnl)]

lemma pairGo_eq_spec (rest : GoStr) :
    ∀ acc, (∀ c ∈ rest, c ≠ '\n') → noTrailWs rest = true →
    pairGo acc rest = specPairSplit acc rest := by
  induction rest with
  | nil => intro acc _ _; rfl
  | cons c rest2 ih =>
    intro acc hnl htr
    have hnl2 : ∀ x ∈ rest2, x ≠ '\n' := fun x hx => hnl x (List.mem_cons_of_mem c hx)
    have htr2 : noTrailWs rest2 = true := noTrailWs_tail c rest2 htr
    by_cases hc : c = ':' ∧ acc ≠ []
    · by_cases hw : headWs rest2 = true
      · have hne2 : rest2 ≠ [] := by
          cases rest2
          · simp [headWs] at hw
          · simp
        have hvne : rest2.dropWhile reSpace ≠ [] := by
          intro hcon
          rw [List.dropWhile_eq_nil_iff] at hcon
          rw [noTrailWs_not_all_space rest2 hne2 hcon] at htr2
          exact absurd htr2 (by simp)
        have hvnl : ∀ x ∈ rest2.dropWhile reSpace, x ≠ '\n' :=
          fun x hx => hnl2 x ((List.dropWhile_sublist reSpace).subset hx)
        have hcs : c = ':' ∧ acc ≠ [] ∧ headWs rest2 = true := ⟨hc.1, hc.2, hw⟩
        simp only [pairGo, specPairSplit, if_pos hc, if_pos hcs,
          tryValue_max rest2 (wsRun_pos rest2 hw) hvne hvnl, if_neg hvne]
      · rw [Bool.not_eq_true] at hw
        have hz : tryValue rest2 (wsRun rest2) = none := by
          rw [wsRun_zero rest2 hw]; rfl
        have hns : ¬(c = ':' ∧ acc ≠ [] ∧ headWs rest2 = true) := by
          rintro ⟨_, _, h3⟩
          rw [hw] at h3
          exact absurd h3 (by simp)
        simp only [pairGo, specPairSplit, if_pos hc, hz, if_neg hns]
        exact ih (c :: acc) hnl2 htr2
    · have hcn : c ≠ '\n' := hnl c (List.mem_cons_self c rest2)
      have hns : ¬(c = ':' ∧ acc ≠ [] ∧ headWs rest2 = true) := by
        rintro ⟨h1, h2, _⟩
        exact hc ⟨h1, h2⟩
      simp only [pairGo, specPairSplit, if_neg hc, if_neg hcn, if_neg hns]
      exact ih (c :: acc) hnl2 htr2

lemma parsePair_eq_spec (line : GoStr) (h1 : line.head? ≠ some ' ')
    (hnl : ∀ c ∈ line, c ≠ '\n') (htr : noTrailWs line = true) :
    parsePair line =
      Option.map (fun p => (createJsonKey p.1, p.2)) (specPairSplit [] line) := by
  unfold parsePair
  rw [if_neg h1, pairGo_eq_spec line [] hnl htr]
  cases specPairSplit [] line with
  | none => rfl
  | some p => simp [createJsonKeyGo]

end LibgoHttp

namespace LibgoHttp

lemma statusGo_shape (line : GoStr) (code : GoStr) (h : statusGo line = some code) :
    code.length = 3 ∧ ∀ c ∈ code, isDig c = true := by
  induction line with
  | nil => exact absurd h (by simp [statusGo])
  | cons c0 rest ih =>
    cases rest with
    | nil => exact absurd h (by simp [statusGo])
    | cons c1 r1 =>
      cases r1 with
      | nil => exact absurd h (by simp [statusGo])
      | cons c2 r2 =>
        cases r2 with
        | nil => exact absurd h (by simp [statusGo])
        | cons c3 rest2 =>
          rw [statusGo] at h
          by_cases hcond : isDig c0 = true ∧ isDig c1 = true ∧ isDig c2 = true ∧
              reSpace c3 = true ∧ rest2 ≠ [] ∧ (∀ c ∈ rest2, c ≠ '\n')
          · rw [if_pos hcond] at h
            injection h with h2
            subst h2
            refine ⟨rfl, ?_⟩
            intro c hc
            rcases List.mem_cons.mp hc with h3 | h3
            · subst h3; exact hcond.1
            rcases List.mem_cons.mp h3 with h4 | h4
            · subst h4; exact hcond.2.1
            rcases List.mem_cons.mp h4 with h5 | h5
            · subst h5; exact hcond.2.2.1
            · simp at h5
          · rw [if_neg hcond] at h
            exact ih h

lemma parseStatus_inv (line : GoStr) (kv : GoStr × GoStr)
    (h : parseStatus line = some kv) :
    kv.1 = ("code").data ∧ statusGo line = some kv.2 := by
  unfold parseStatus at h
  cases hs : statusGo line with
  | none => rw [hs] at h; exact absurd h (by simp)
  | some code =>
    rw [hs] at h
    injection h with h2
    subst h2
    exact ⟨rfl, rfl⟩

end LibgoHttp

namespace LibgoHttp

/-- Claim C1: for the input stream of the three newline-terminated lines
HTTP/1.1 200 OK, Content-Type: text/html and X-Cache: HIT, Output returns
exactly the JSON object mapping code to 200, contentType to text/html and
xCache to HIT, together with a nil error. -/
theorem claim_C1 :
    Output (("HTTP/1.1 200 OK\nContent-Type: text/html\nX-Cache: HIT\n").data) =
      (("\x7b\"code\":\"200\",\"contentType\":\"text/html\",\"xCache\":\"HIT\"\x7d").data,
        none) := by
  decide

/-- Claim C2 counterexample: normalizing the already-normalized single-word
key contentType does not return it unchanged; the title caser lowercases the
interior uppercase letter, so createJsonKey maps contentType to contenttype. -/
theorem claim_C2_counterexample :
    createJsonKey (("contentType").data) ≠ ("contentType").data ∧
    createJsonKey (("contentType").data) = ("contenttype").data :=
  ⟨by decide, by decide⟩

/-- Claim C2, amended: for every single-word ASCII key, one containing no
hyphen, slash or space, the normalizer returns the full lowercasing of the
key, and re-applying the normalizer to such an output returns it unchanged;
the example of the original claim fails, since normalizing contentType
yields contenttype, not contentType. The keys are restricted to ASCII: on
non-ASCII keys the Unicode full case mappings of the source (the sharp s
title-maps to a two-letter string) break idempotence, and the modelled
casing covers only the ASCII range, on which both the model and the source
turn a single-word key into its plain lowercasing. -/
theorem claim_C2 (k : GoStr) (_hascii : ∀ c ∈ k, c.toNat ≤ 127)
    (h : ∀ c ∈ k, c ≠ '-' ∧ c ≠ '/' ∧ c ≠ ' ') :
    createJsonKey (createJsonKey k) = createJsonKey k := by
  rw [createJsonKey_single_word k h,
    createJsonKey_single_word (k.map asciiToLower) (map_lower_no_sep k h),
    List.map_map]
  apply List.map_congr_left
  intro a _
  simp only [Function.comp_apply]
  exact asciiToLower_asciiToLower a

/-- Witness of claim C2 at the single-word ASCII key etag. -/
theorem claim_C2_witness :
    ((∀ c ∈ ("etag").data, c.toNat ≤ 127) ∧
      (∀ c ∈ ("etag").data, c ≠ '-' ∧ c ≠ '/' ∧ c ≠ ' ')) ∧
    createJsonKey (createJsonKey (("etag").data)) = createJsonKey (("etag").data) :=
  ⟨⟨by decide, by decide⟩, claim_C2 (("etag").data) (by decide) (by decide)⟩

/-- Claim C3: for every retained line not beginning with a space (a retained
line is trimmed, hence without trailing whitespace, and contains no newline),
pair classification succeeds exactly when the line splits at the first colon
followed by at least one whitespace character, with non-empty key and
non-empty value, the separator being the colon together with the whole
whitespace run; on success the record of the normalized key and the value is
emitted. specPairSplit is the splitter written from the words of the
specification. -/
theorem claim_C3 (line : GoStr) (h1 : line.head? ≠ some ' ')
    (hnl : ∀ c ∈ line, c ≠ '\n') (htr : noTrailWs line = true) :
    parsePair line =
      Option.map (fun p => (createJsonKey p.1, p.2)) (specPairSplit [] line) :=
  parsePair_eq_spec line h1 hnl htr

/-- Witness of claim C3 at the line Content-Type: text/html. -/
theorem claim_C3_witness :
    ((("Content-Type: text/html").data.head? ≠ some ' ') ∧
      (∀ c ∈ ("Content-Type: text/html").data, c ≠ '\n') ∧
      noTrailWs (("Content-Type: text/html").data) = true) ∧
    parsePair (("Content-Type: text/html").data) =
      Option.map (fun p => (createJsonKey p.1, p.2))
        (specPairSplit [] (("Content-Type: text/html").data)) :=
  ⟨⟨by decide, by decide, by decide⟩,
    claim_C3 (("Content-Type: text/html").data) (by decide) (by decide) (by decide)⟩

/-- Claim C4: after any run of dropped lines, only the first retained line is
tried against the status pattern: on a match the code record is emitted and
all later lines are processed by the status-free pair-only classifier; on a
failure the very same line falls through to pair classification (the head of
the status-free classifier applied to it); the classifier with a cleared
first-line flag never consults the status pattern; and every status record
carries the lowercase key code and a value of exactly three digits. -/
theorem claim_C4 (pre : List GoStr) (l : GoStr) (rest ls : List GoStr)
    (line : GoStr) (kv : GoStr × GoStr)
    (hpre : ∀ p ∈ pre, utf8Len (trimRight p) < 4)
    (hl : 4 ≤ utf8Len (trimRight l))
    (hs : parseStatus line = some kv) :
    (createSenders (pre ++ l :: rest) true =
      match parseStatus (trimRight l) with
      | some kv2 =>
        (kv2 :: (createSendersNoStatus rest).1, (createSendersNoStatus rest).2)
      | none => createSendersNoStatus (l :: rest)) ∧
    createSenders ls false = createSendersNoStatus ls ∧
    kv.1 = ("code").data ∧ kv.2.length = 3 ∧ (∀ c ∈ kv.2, isDig c = true) := by
  have hinv := parseStatus_inv line kv hs
  have hshape := statusGo_shape line kv.2 hinv.2
  exact ⟨createSenders_first_retained pre l rest hpre hl,
    createSenders_false_eq ls, hinv.1, hshape.1, hshape.2⟩

/-- Witness of claim C4: one dropped line, the status line HTTP/1.1 200 OK
as first retained line, and a later header line. -/
theorem claim_C4_witness :
    (createSenders ([("ok").data] ++ ("HTTP/1.1 200 OK").data ::
        [("X-Cache: HIT").data]) true =
      match parseStatus (trimRight (("HTTP/1.1 200 OK").data)) with
      | some kv2 =>
        (kv2 :: (createSendersNoStatus [("X-Cache: HIT").data]).1,
          (createSendersNoStatus [("X-Cache: HIT").data]).2)
      | none =>
        createSendersNoStatus (("HTTP/1.1 200 OK").data :: [("X-Cache: HIT").data])) ∧
    createSenders [("200 OK").data] false =
      createSendersNoStatus [("200 OK").data] ∧
    (("code").data, ("200").data).1 = ("code").data ∧
    (("code").data, ("200").data).2.length = 3 ∧
    (∀ c ∈ (("code").data, ("200").data).2, isDig c = true) :=
  claim_C4 [("ok").data] (("HTTP/1.1 200 OK").data) [("X-Cache: HIT").data]
    [("200 OK").data] (("HTTP/1.1 200 OK").data) ((("code").data, ("200").data))
    (by decide) (by decide) (by decide)

/-- Claim C5 counterexample: for the single input line Raw: hit, no retained
line fails classification, yet the final mapping contains the key raw, bound
to the string hit coming from the header named Raw; the presence of the raw
key is therefore not equivalent to the existence of unparseable lines. -/
theorem claim_C5_counterexample :
    mapLookup (outputMap [("Raw: hit").data]) rawKey =
      some (JValue.str (("hit").data)) ∧
    (createSenders [("Raw: hit").data] true).2 = [] :=
  ⟨by decide, by decide⟩

/-- Claim C5, amended: whenever at least one retained line failed both
classifications, the reserved key raw is present and bound to the ordered
list of exactly those lines; every key of the final mapping is the reserved
key code, the reserved key raw, or a normalized header key; however the raw
key can also be present without any failed line, produced by a header whose
normalized name is literally raw. -/
theorem claim_C5 (lines : List GoStr) :
    ((createSenders lines true).2 ≠ [] →
      mapLookup (outputMap lines) rawKey =
        some (JValue.arr (createSenders lines true).2)) ∧
    (∀ key ∈ (outputMap lines).map (fun p => p.1),
      key = ("code").data ∨ key = rawKey ∨ ∃ k0, key = createJsonKey k0) := by
  constructor
  · intro hne
    unfold outputMap convert
    simp only [ne_eq, hne, not_false_iff, if_true]
    exact mapInsert_lookup_self _ _ _
  · intro key hk
    unfold outputMap convert at hk
    have hbuild : key ∈ (buildMap (createSenders lines true).1).map (fun p => p.1) →
        key = ("code").data ∨ key = rawKey ∨ ∃ k0, key = createJsonKey k0 := by
      intro hb
      rcases buildMap_keys_sub _ _ hb with ⟨kv, hkv, hkey⟩
      rcases createSenders_conv_keys lines true kv hkv with h1 | h1
      · left; rw [← hkey]; exact h1
      · right; right; rcases h1 with ⟨k0, hk0⟩; exact ⟨k0, by rw [← hkey]; exact hk0⟩
    by_cases hne : (createSenders lines true).2 ≠ []
    · rw [if_pos hne] at hk
      rcases mapInsert_keys_sub _ _ _ _ hk with h1 | h1
      · right; left; exact h1
      · exact hbuild h1
    · rw [if_neg hne] at hk
      exact hbuild hk
  
/-- Witness of claim C5: a single unparseable line zzzz lands under raw. -/
theorem claim_C5_witness :
    mapLookup (outputMap [("zzzz").data]) rawKey =
      some (JValue.arr (createSenders [("zzzz").data] true).2) :=
  (claim_C5 [("zzzz").data]).1 (by decide)

/-- Claim C6 counterexample: the line of the two characters A-I in hiragana
has only two characters, fewer than four, after trimming, yet it is not
dropped: its UTF-8 byte length is six, so the classifier retains it and it
lands in the raw lines. The length test of the source counts bytes, not
characters. -/
theorem claim_C6_counterexample :
    (trimRight (("あい").data)).length < 4 ∧
    (createSenders [("あい").data] true).2 = [("あい").data] :=
  ⟨by decide, by decide⟩

/-- Claim C6, amended: every input line whose UTF-8 byte length after
trimming trailing whitespace is below four is silently dropped, contributing
neither a record nor a raw line, so the classifier and Output are unchanged
by its removal; the threshold counts bytes, not characters. -/
theorem claim_C6 (ls1 ls2 : List GoStr) (l : GoStr) (f : Bool)
    (h : utf8Len (trimRight l) < 4) :
    createSenders (ls1 ++ l :: ls2) f = createSenders (ls1 ++ ls2) f ∧
    OutputWith jsonMarshalE (ls1 ++ l :: ls2) = OutputWith jsonMarshalE (ls1 ++ ls2) := by
  refine ⟨createSenders_skip_short l h ls1 ls2 f, ?_⟩
  unfold OutputWith convert
  rw [createSenders_skip_short l h ls1 ls2 true]

/-- Witness of claim C6: the two-byte line ok is dropped between two headers. -/
theorem claim_C6_witness :
    utf8Len (trimRight (("ok").data)) < 4 ∧
    createSenders ([("HTTP/1.1 200 OK").data] ++ ("ok").data ::
        [("X-Cache: HIT").data]) true =
      createSenders ([("HTTP/1.1 200 OK").data] ++ [("X-Cache: HIT").data]) true ∧
    OutputWith jsonMarshalE ([("HTTP/1.1 200 OK").data] ++ ("ok").data ::
        [("X-Cache: HIT").data]) =
      OutputWith jsonMarshalE ([("HTTP/1.1 200 OK").data] ++ [("X-Cache: HIT").data]) :=
  ⟨by decide,
    (claim_C6 [("HTTP/1.1 200 OK").data] [("X-Cache: HIT").data] (("ok").data)
      true (by decide)).1,
    (claim_C6 [("HTTP/1.1 200 OK").data] [("X-Cache: HIT").data] (("ok").data)
      true (by decide)).2⟩

/-- Claim C7: the aggregated map holds at most one entry per key, and looking
a key up returns exactly the value of the last record of the classified
stream carrying that key, so the later write wins. -/
theorem claim_C7 (kvs : List (GoStr × GoStr)) (k : GoStr) :
    (buildMap kvs).countP (fun p => decide (p.1 = k)) ≤ 1 ∧
    mapLookup (buildMap kvs) k = Option.map JValue.str (lastVal kvs k) :=
  ⟨buildMap_countP_le kvs k, buildMap_lookup_lastVal kvs k⟩

/-- Claim C8 counterexample: with a serializer that always fails, Output
still returns a nil error together with the empty string (the conversion of
the nil byte slice), because the source discards the marshal error with the
blank identifier; the failure does not propagate to the caller. -/
theorem claim_C8_counterexample :
    OutputWith (fun _ => Except.error (("boom").data)) [("X-Cache: HIT").data] =
      ([], none) := by
  decide

/-- Claim C8, amended: a serialization failure does not propagate: Output
discards the marshal error and returns the empty string with a nil error; in
this program serialization of the flat mapping in fact never fails, the
marshal of the source always returning ok. -/
theorem claim_C8 (marshal : List (GoStr × JValue) → Except GoStr GoStr)
    (e : GoStr) (lines : List GoStr) (hm : ∀ m, marshal m = Except.error e) :
    OutputWith marshal lines = ([], none) ∧
    (∀ m, jsonMarshalE m = Except.ok (jsonMarshalStr m)) := by
  refine ⟨?_, fun m => rfl⟩
  simp only [OutputWith, convert]
  rw [hm]

/-- Witness of claim C8 with a concrete failing serializer. -/
theorem claim_C8_witness :
    OutputWith (fun _ => Except.error (("x").data)) [] = ([], none) ∧
    (∀ m, jsonMarshalE m = Except.ok (jsonMarshalStr m)) :=
  claim_C8 (fun _ => Except.error (("x").data)) (("x").data) [] (fun _ => rfl)

/-- Claim C9: appending a final chunk with no terminating newline to any
input changes nothing: the read loop breaks on the error accompanying the
partial line before classifying it, so the chunk yields no line, no record
and no raw entry, and Output is unchanged. -/
theorem claim_C9 (input t : List Char) (ht : ∀ c ∈ t, c ≠ '\n') :
    readLines (input ++ t) = readLines input ∧
    Output (input ++ t) = Output input := by
  have hr : readLines (input ++ t) = readLines input :=
    readLinesAux_append t ht input []
  exact ⟨hr, by unfold Output; rw [hr]⟩

/-- Witness of claim C9: a header line left unterminated is discarded. -/
theorem claim_C9_witness :
    (∀ c ∈ ("X-Cache: HIT").data, c ≠ '\n') ∧
    readLines (("HTTP/1.1 200 OK\n").data ++ ("X-Cache: HIT").data) =
      readLines (("HTTP/1.1 200 OK\n").data) ∧
    Output (("HTTP/1.1 200 OK\n").data ++ ("X-Cache: HIT").data) =
      Output (("HTTP/1.1 200 OK\n").data) :=
  ⟨by decide,
    (claim_C9 (("HTTP/1.1 200 OK\n").data) (("X-Cache: HIT").data) (by decide)).1,
    (claim_C9 (("HTTP/1.1 200 OK\n").data) (("X-Cache: HIT").data) (by decide)).2⟩

/-- Claim C10: Output returns a nil error on every input: convert always
returns a nil error, createJsonKey always returns a nil error, the marshal
error is discarded, and the failure branch of the command entry point is
unreachable, its exit code being zero on every input. -/
theorem claim_C10 (input : List Char) (k : GoStr) :
    (Output input).2 = none ∧
    (convert (readLines input)).2.2 = none ∧
    (createJsonKeyGo k).2 = none ∧
    mainExitCode input = 0 := by
  refine ⟨?_, rfl, rfl, ?_⟩
  · simp [Output, OutputWith, convert]
  · simp [mainExitCode, Output, OutputWith, convert]

end LibgoHttp
